import Mathlib

/-!
# gdisasm: opcode classifier, ModRM resolver and formatter

A shallow embedding of `disasm/command.go` and `disasm/disasm.go`: `parseOpcode`,
`modrm`, `cmdStr` and `Disasm.parse`.

Conventions of the embedding:

* a Go `byte` is a `Nat` below 256; byte arithmetic that could leave the range
  is reduced `% 256`;
* a Go `[]byte` is a `List Nat`, the nil slice being `[]`;
* a Go `int` is an `Int`; an addition on it wraps around at 64 bits;
* a Go `error` is an `Option Error`, `none` being the nil error;
* a function that indexes a slice or an array returns in `Option`, where `none`
  stands for the run-time panic of an index out of range;
* `fmt.Sprintf` verbs are modelled by the `fmt*` functions below.
-/

namespace Disasm

/-! ## Data model -/

/-- Modelled from the spec: the `Mnemonic` type and its constants are used by
`command.go` but declared in none of the source files.  The spec calls it a closed
enumeration (add, or, adc, sbb, sub, and, push, pop, inc); `unset` is the zero
value that `command.init` stores with `c.mnem = 0`, kept apart from the named
operations as `op.go` does for `Opcode` (`_ Opcode = iota`). -/
inductive Mnemonic where
  | unset
  | add
  | or
  | adc
  | sbb
  | sub
  | and
  | push
  | pop
  | inc
  deriving DecidableEq, Repr

/-- Modelled from the spec: the `Reg` interface and the `Sreg` type are used by
`command.go` but declared in none of the source files.  The spec describes the
embedded selector as a plain register or a segment register; `Sreg n` is the
conversion `Sreg(n)` of a byte, `Reg16 n` a plain register index. -/
inductive Reg where
  | Reg16 (n : Nat)
  | Sreg (n : Nat)
  deriving DecidableEq, Repr

/-- The error values the two functions build; each constructor keeps the
arguments of the message it stands for. -/
inductive Error where
  /-- Stands for `errors.New("parseOpcode: the length of argument must be 2")`. -/
  | parseOpcodeLength
  /-- Stands for `fmt.Errorf("the length of %X is invalid", bs)`. -/
  | invalidLength (bs : List Nat)
  /-- Stands for `fmt.Errorf("r/m is %#x but %X does not have length %v", rm, bs, l)`. -/
  | modrmLength (rm : Nat) (bs : List Nat) (l : Int)
  /-- Stands for `fmt.Errorf("either mod = %v or r/m = %v is invalid", mod, rm)`. -/
  | invalidField (mod rm : Nat)
  deriving DecidableEq, Repr

/-- The `command` struct of `command.go`. -/
structure command where
  bs : List Nat
  mnem : Mnemonic
  l : Int
  d : Nat
  w : Nat
  reg : Option Reg
  deriving DecidableEq, Repr

/-- `maxLenFolInstCod`: the maximum number of bytes following the opcode. -/
def maxLenFolInstCod : Nat := 3

/-- `numBytesPeeked`: the number of bytes peeked to be interpreted. -/
def numBytesPeeked : Nat := 2

/-- 8-bit registers. -/
def reg8 : List String := ["al", "cl", "dl", "bl", "ah", "ch", "dh", "bh"]

/-- 16-bit registers. -/
def reg16 : List String := ["ax", "cx", "dx", "bx", "sp", "bp", "si", "di"]

/-- Segment registers. -/
def sreg : List String := ["es", "cs", "ss", "ds"]

/-- Effective addresses. -/
def regm : List String := ["bx+si", "bx+di", "bp+si", "bp+di", "si", "di", "bp", "bx"]

/-! ## Formatting verbs -/

/-- `%x` of a non-negative integer: lowercase hexadecimal, no leading zeros. -/
def fmtHex (n : Nat) : String := String.mk (Nat.toDigits 16 n)

/-- `%0Nx` of a non-negative integer: lowercase hexadecimal, padded on the left
with zeros up to `width` characters. -/
def fmtHexPad (width n : Nat) : String :=
  String.mk (List.replicate (width - (fmtHex n).length) '0') ++ fmtHex n

/-- `%+#x` of a signed integer: the sign, always written, then `0x`, then the
lowercase hexadecimal digits of the magnitude. -/
def fmtSignedHex (x : Int) : String :=
  (if x < 0 then "-" else "+") ++ "0x" ++ fmtHex x.natAbs

/-- The conversion `int8(b)` of a byte: its two's-complement reading. -/
def int8 (b : Nat) : Int :=
  if b % 256 < 128 then Int.ofNat (b % 256) else Int.ofNat (b % 256) - 256

/-- The conversion `int16(b)` of a byte, which never changes the value. -/
def int16 (b : Nat) : Int := Int.ofNat (b % 256)

/-- The signed reading of a 16-bit pattern. -/
def wrap16 (n : Nat) : Int :=
  if n % 65536 < 32768 then Int.ofNat (n % 65536) else Int.ofNat (n % 65536) - 65536

/-- The 16-bit pattern of a signed value. -/
def bits16 (x : Int) : Nat := (x % 65536).toNat

/-- `x << k` on `int16`: the product wraps around at 16 bits. -/
def shl16 (x : Int) (k : Nat) : Int := wrap16 (bits16 (x * 2 ^ k))

/-- `x | y` on `int16`: bitwise or of the two 16-bit patterns. -/
def or16 (x y : Int) : Int := wrap16 (bits16 x ||| bits16 y)

/-! ## command.go -/

/-- `getd`: the direction bit. -/
def getd (b : Nat) : Nat := (b >>> 1) &&& 0x1

/-- `getw`: the width bit. -/
def getw (b : Nat) : Nat := b &&& 0x1

/-- `command.init`: every field back to its zero value. -/
def command.init (_c : command) : command :=
  { bs := [], mnem := Mnemonic.unset, l := 0, d := 0, w := 0, reg := none }

/-- `command.parseOpcode`: the descriptor after the call and the error returned.
The cases are tested in the order of the source `switch`; when none matches the
function falls out of the `switch` and returns nil. -/
def command.parseOpcode (c0 : command) (bs : List Nat) : Option (command × Option Error) :=
  let c := c0.init
  if bs.length ≠ 2 then
    some (c, some Error.parseOpcodeLength)
  else do
    let b ← bs[0]?
    -- add
    if b >>> 2 = 0x0 then
      pure ({ c with mnem := Mnemonic.add, l := 2, d := getd b, w := getw b }, none)
    else if b >>> 1 = 0x2 then
      pure ({ c with mnem := Mnemonic.add, w := getw b,
                     l := Int.ofNat ((getw b + 1) % 256) }, none)
    -- push
    else if b &&& 0xE7 = 0x6 then
      pure ({ c with mnem := Mnemonic.push, l := 1,
                     reg := some (Reg.Sreg ((b >>> 3) &&& 0x3)) }, none)
    -- pop
    else if b &&& 0xE7 = 0x7 then
      pure ({ c with mnem := Mnemonic.pop, l := 1,
                     reg := some (Reg.Sreg ((b >>> 3) &&& 0x3)) }, none)
    -- or
    else if b >>> 2 = 0x2 then
      pure ({ c with mnem := Mnemonic.or, l := 2, d := getd b, w := getw b }, none)
    else if b >>> 1 = 0x6 then
      pure ({ c with mnem := Mnemonic.or, w := getw b,
                     l := Int.ofNat ((getw b + 1) % 256) }, none)
    -- adc
    else if b >>> 2 = 0x4 then
      pure ({ c with mnem := Mnemonic.adc, l := 2, d := getd b, w := getw b }, none)
    else if b >>> 1 = 0xA then
      pure ({ c with mnem := Mnemonic.adc, w := getw b,
                     l := Int.ofNat ((getw b + 1) % 256) }, none)
    -- sbb
    else if b >>> 2 = 0x6 then
      pure ({ c with mnem := Mnemonic.sbb, l := 2, d := getd b, w := getw b }, none)
    else if b >>> 1 = 0xE then
      pure ({ c with mnem := Mnemonic.sbb, w := getw b,
                     l := Int.ofNat ((getw b + 1) % 256) }, none)
    -- sub
    else if b >>> 2 = 0xA then
      pure ({ c with mnem := Mnemonic.sub, l := 2, d := getd b, w := getw b }, none)
    -- and
    else if b >>> 2 = 0x8 then
      pure ({ c with mnem := Mnemonic.and, l := 2, d := getd b, w := getw b }, none)
    else if b >>> 1 = 0x12 then
      pure ({ c with mnem := Mnemonic.and, w := getw b,
                     l := Int.ofNat ((getw b + 1) % 256) }, none)
    else
      pure (c, none)

/-- The thirteen case conditions of the `switch` of `parseOpcode`, in source order:
the first byte matches a case when one of them holds. -/
def matchesCase (b : Nat) : Prop :=
  b >>> 2 = 0x0 ∨ b >>> 1 = 0x2 ∨ b &&& 0xE7 = 0x6 ∨ b &&& 0xE7 = 0x7 ∨
  b >>> 2 = 0x2 ∨ b >>> 1 = 0x6 ∨ b >>> 2 = 0x4 ∨ b >>> 1 = 0xA ∨
  b >>> 2 = 0x6 ∨ b >>> 1 = 0xE ∨ b >>> 2 = 0xA ∨ b >>> 2 = 0x8 ∨ b >>> 1 = 0x12

instance : DecidablePred matchesCase := fun b => by
  unfold matchesCase
  infer_instance

/-! ## disasm.go -/

/-- `modrmErr`: the error that may occur in `modrm`. -/
def modrmErr (rm : Nat) (bs : List Nat) (l : Nat) : Error :=
  Error.modrmLength rm bs (Int.ofNat l)

/-- `modrm` interprets the `[mod *** r/m]` byte immediately following the opcode:
the operand string and the error returned. -/
def modrm (bs : List Nat) : Option (String × Option Error) :=
  if bs.length < 1 ∨ bs.length > maxLenFolInstCod then
    some ("", some (Error.invalidLength bs))
  else do
    let b ← bs[0]?
    let mod := b >>> 6 -- [00]000000: upper two bits
    let rm := b &&& 0x7 -- 00000[000]: lower three bits
    if mod = 0x0 then -- mod = 00
      if rm = 0x6 then -- rm = 110 ==> b = 00***110
        if bs.length ≠ maxLenFolInstCod then
          pure ("", some (modrmErr rm bs maxLenFolInstCod))
        else do
          let b2 ← bs[2]?
          let b1 ← bs[1]?
          pure ("[0x" ++ fmtHexPad 2 b2 ++ fmtHexPad 2 b1 ++ "]", none)
      -- the length of bs following 00****** (except 00***110) should be 1
      else if bs.length ≠ 1 then
        pure ("", some (modrmErr rm bs 1))
      else do
        let r ← regm[rm]?
        pure ("[" ++ r ++ "]", none)
    else if mod = 0x1 then -- mod = 01
      if bs.length ≠ maxLenFolInstCod - 1 then
        pure ("", some (modrmErr rm bs (maxLenFolInstCod - 1)))
      else do
        let r ← regm[rm]?
        let b1 ← bs[1]?
        pure ("[" ++ r ++ fmtSignedHex (int8 b1) ++ "]", none)
    else if mod = 0x2 then -- mod = 10
      if bs.length ≠ maxLenFolInstCod then
        pure ("", some (modrmErr rm bs maxLenFolInstCod))
      else do
        -- little endian
        let b2 ← bs[2]?
        let b1 ← bs[1]?
        let disp := or16 (shl16 (int16 b2) 8) (int16 b1)
        let r ← regm[rm]?
        pure ("[" ++ r ++ fmtSignedHex disp ++ "]", none)
    else if mod = 0x3 then -- mod = 11
      do
        let r ← reg16[rm]?
        pure (r, none)
    else
      pure ("", some (Error.invalidField mod rm))

/-! ## Descriptors the classifier is expected to build -/

/-- The descriptor of a register/memory form: length 2, direction and width bits
taken from the opcode byte, no embedded register. -/
def regMemDescriptor (mn : Mnemonic) (b : Nat) : command :=
  { bs := [], mnem := mn, l := 2, d := (b >>> 1) &&& 1, w := b &&& 1, reg := none }

/-- The descriptor of an immediate form: width bit taken from the opcode byte,
length one more than the width bit, direction bit zero, no embedded register. -/
def immDescriptor (mn : Mnemonic) (b : Nat) : command :=
  { bs := [], mnem := mn, l := 1 + Int.ofNat (b &&& 1), d := 0, w := b &&& 1, reg := none }

/-- The descriptor of a segment-register push or pop: length 1, both bits zero,
the selector in bits 3 and 4 of the opcode byte. -/
def sregDescriptor (mn : Mnemonic) (b : Nat) : command :=
  { bs := [], mnem := mn, l := 1, d := 0, w := 0, reg := some (Reg.Sreg ((b >>> 3) &&& 3)) }

/-! ## Hexadecimal numerals as the operand texts are expected to show them -/

/-- The sixteen lowercase hexadecimal digits. -/
def lowerHexDigits : List Char :=
  ['0', '1', '2', '3', '4', '5', '6', '7', '8', '9', 'a', 'b', 'c', 'd', 'e', 'f']

/-- The lowercase hexadecimal digit of a value below 16. -/
def hexDigit (d : Nat) : Char := lowerHexDigits.getD d '?'

/-- Exactly four lowercase hexadecimal digits, zero-padded, of a value below 65536. -/
def hex4 (n : Nat) : String :=
  String.mk [hexDigit (n / 4096 % 16), hexDigit (n / 256 % 16), hexDigit (n / 16 % 16),
    hexDigit (n % 16)]

/-- The lowercase hexadecimal numeral, without leading zeros, of a value below 65536. -/
def hexNoLead (n : Nat) : String :=
  if n < 16 then String.mk [hexDigit n]
  else if n < 256 then String.mk [hexDigit (n / 16), hexDigit (n % 16)]
  else if n < 4096 then String.mk [hexDigit (n / 256), hexDigit (n / 16 % 16), hexDigit (n % 16)]
  else hex4 n

/-! ## A concrete prior state -/

/-- A prior descriptor with every field holding a leftover of an earlier decode. -/
def staleCommand : command :=
  { bs := [0xFF, 0xC0, 0x00], mnem := Mnemonic.inc, l := 3, d := 1, w := 1,
    reg := some (Reg.Reg16 5) }

/-! ## The formatter and the older classifier of disasm.go -/

/-- Modelled from the spec: the `String` method of `Mnemonic` is declared in none of
the source files.  The spec prints a mnemonic by its lowercase name; the zero value
is printed the way the generated method of `Opcode` prints a value without a name. -/
def Mnemonic.name : Mnemonic → String
  | Mnemonic.unset => "Mnemonic(0)"
  | Mnemonic.add => "add"
  | Mnemonic.or => "or"
  | Mnemonic.adc => "adc"
  | Mnemonic.sbb => "sbb"
  | Mnemonic.sub => "sub"
  | Mnemonic.and => "and"
  | Mnemonic.push => "push"
  | Mnemonic.pop => "pop"
  | Mnemonic.inc => "inc"

/-- The sixteen uppercase hexadecimal digits. -/
def upperHexDigits : List Char :=
  ['0', '1', '2', '3', '4', '5', '6', '7', '8', '9', 'A', 'B', 'C', 'D', 'E', 'F']

/-- The uppercase hexadecimal digit of a value below 16. -/
def upperHexDigit (d : Nat) : Char := upperHexDigits.getD d '?'

/-- `%X` of a non-negative integer: uppercase hexadecimal, no leading zeros. -/
def fmtHEX (n : Nat) : String := String.mk ((Nat.toDigits 16 n).map Char.toUpper)

/-- `%0NX` of a signed integer: uppercase hexadecimal padded on the left with zeros
up to `width` characters, the sign of a negative value counting as one of them. -/
def fmtHEXPad (width : Nat) (x : Int) : String :=
  if x < 0 then
    "-" ++ String.mk (List.replicate (width - 1 - (fmtHEX x.natAbs).length) '0') ++
      fmtHEX x.natAbs
  else
    String.mk (List.replicate (width - (fmtHEX x.natAbs).length) '0') ++ fmtHEX x.natAbs

/-- The characters of `%X` of a byte slice: for each byte its high and its low
hexadecimal digit, uppercase, with nothing between the bytes. -/
def fmtHEXBytesChars : List Nat → List Char
  | [] => []
  | c :: t => upperHexDigit (c >>> 4) :: upperHexDigit (c &&& 0xF) :: fmtHEXBytesChars t

/-- `%X` of a byte slice. -/
def fmtHEXBytes (bs : List Nat) : String := String.mk (fmtHEXBytesChars bs)

/-- `cmdStr` returns a disassembled line:
`fmt.Sprintf("%08X  %X   %s %s%s%s", off, bs, mnem.String(), w, opr1, opr2)`. -/
def cmdStr (off : Int) (bs : List Nat) (mnem : Mnemonic) (w opr1 opr2 : String) : String :=
  fmtHEXPad 8 off ++ "  " ++ fmtHEXBytes bs ++ "   " ++ mnem.name ++ " " ++ w ++ opr1 ++ opr2

/-- The errors `Disasm.parse` builds: `fmt.Errorf("Read() failed: %v", e)` around the
error of the reader and `fmt.Errorf("modrm(%v) failed: %v", d.cmd.bs, err)` around
the error of `modrm`. -/
inductive ParseError where
  | readFailed (e : String)
  | modrmFailed (bs : List Nat) (e : Error)
  deriving DecidableEq, Repr

/-- The result of an addition on a Go `int`, taken as 64 bits wide: it wraps around
in two's complement. -/
def wrapInt (x : Int) : Int := (x + 2 ^ 63) % 2 ^ 64 - 2 ^ 63

set_option linter.dupNamespace false in
/-- The `Disasm` struct without its reader and writer: the offset, the descriptor,
and in `spare` the cells of the backing array of `cmd.bs` that lie between its
length and its capacity, which a reslice `cmd.bs[:3]` may bring into view. -/
structure Disasm where
  offset : Int
  cmd : command
  spare : List Nat
  deriving DecidableEq, Repr

set_option linter.dupNamespace false in
/-- `Disasm.parse`.  The reader is outside this development: `read p` gives the
contents of the buffer `p` after `d.rdr.Read(p)` and the error that call returns.
The result is the state after the call, the line and the error; `none` stands for a
run-time panic (a reslice beyond the capacity, an index out of range). -/
def Disasm.parse (d : Disasm) (read : List Nat → List Nat × Option String) (b : Nat) :
    Option (Disasm × String × Option ParseError) :=
  if b >>> 1 = 0x7F then -- 1111111w
    let d1 := { d with offset := wrapInt (d.offset + 4) }
    let backing := d1.cmd.bs ++ d1.spare
    if backing.length < 3 then
      none
    else
      let res := read (backing.take 3)
      let d2 := { d1 with cmd := { d1.cmd with bs := res.1 }, spare := backing.drop 3 }
      match res.2 with
      | some e => some (d2, "", some (ParseError.readFailed e))
      | none =>
        match modrm d2.cmd.bs with
        | none => none
        | some (_, some err) => some (d2, "", some (ParseError.modrmFailed d2.cmd.bs err))
        | some (opr, none) =>
          some (d2, cmdStr d2.offset d2.cmd.bs Mnemonic.inc "word " opr "", none)
  else if b >>> 3 = 0x8 then -- 01000reg
    let d1 := { d with offset := wrapInt (d.offset + 1) }
    let reg := b &&& 0x7
    match reg16[reg]? with
    | none => none
    | some r => some (d1, cmdStr d1.offset [] Mnemonic.inc "" r "", none)
  else
    some ({ d with offset := wrapInt (d.offset + 1) }, "", none)

/-! ## The cases of the classifier as a table -/

/-- The descriptor `command.init` leaves. -/
def zeroedCommand : command :=
  { bs := [], mnem := Mnemonic.unset, l := 0, d := 0, w := 0, reg := none }

/-- The thirteen cases of the `switch` of `parseOpcode`, in source order: for each
its condition on the first byte and the descriptor its body leaves. -/
def parseOpcodeCases (b : Nat) : List (Bool × command) :=
  [ (decide (b >>> 2 = 0x0),
      { zeroedCommand with mnem := Mnemonic.add, l := 2, d := getd b, w := getw b }),
    (decide (b >>> 1 = 0x2),
      { zeroedCommand with mnem := Mnemonic.add, w := getw b,
                           l := Int.ofNat ((getw b + 1) % 256) }),
    (decide (b &&& 0xE7 = 0x6),
      { zeroedCommand with mnem := Mnemonic.push, l := 1,
                           reg := some (Reg.Sreg ((b >>> 3) &&& 0x3)) }),
    (decide (b &&& 0xE7 = 0x7),
      { zeroedCommand with mnem := Mnemonic.pop, l := 1,
                           reg := some (Reg.Sreg ((b >>> 3) &&& 0x3)) }),
    (decide (b >>> 2 = 0x2),
      { zeroedCommand with mnem := Mnemonic.or, l := 2, d := getd b, w := getw b }),
    (decide (b >>> 1 = 0x6),
      { zeroedCommand with mnem := Mnemonic.or, w := getw b,
                           l := Int.ofNat ((getw b + 1) % 256) }),
    (decide (b >>> 2 = 0x4),
      { zeroedCommand with mnem := Mnemonic.adc, l := 2, d := getd b, w := getw b }),
    (decide (b >>> 1 = 0xA),
      { zeroedCommand with mnem := Mnemonic.adc, w := getw b,
                           l := Int.ofNat ((getw b + 1) % 256) }),
    (decide (b >>> 2 = 0x6),
      { zeroedCommand with mnem := Mnemonic.sbb, l := 2, d := getd b, w := getw b }),
    (decide (b >>> 1 = 0xE),
      { zeroedCommand with mnem := Mnemonic.sbb, w := getw b,
                           l := Int.ofNat ((getw b + 1) % 256) }),
    (decide (b >>> 2 = 0xA),
      { zeroedCommand with mnem := Mnemonic.sub, l := 2, d := getd b, w := getw b }),
    (decide (b >>> 2 = 0x8),
      { zeroedCommand with mnem := Mnemonic.and, l := 2, d := getd b, w := getw b }),
    (decide (b >>> 1 = 0x12),
      { zeroedCommand with mnem := Mnemonic.and, w := getw b,
                           l := Int.ofNat ((getw b + 1) % 256) }) ]

/-- The fifteen opcode patterns evaluated on a byte: the thirteen case conditions
of `parseOpcode` in source order, then the two conditions of `Disasm.parse`. -/
def opcodePatterns (b : Nat) : List Bool :=
  (parseOpcodeCases b).map Prod.fst ++ [decide (b >>> 1 = 0x7F), decide (b >>> 3 = 0x8)]

/-- A `switch` run over a table of cases: the descriptor of the first case whose
condition holds, the given descriptor when none holds. -/
def firstMatch : List (Bool × command) → command → command
  | [], z => z
  | (true, c) :: _, _ => c
  | (false, _) :: t, z => firstMatch t z

/-! ## Hexadecimal numerals as the formatted line is expected to show them -/

/-- Exactly eight uppercase hexadecimal digits, zero-padded, of a value below 2^32. -/
def hex8Upper (n : Nat) : String :=
  String.mk [upperHexDigit (n / 268435456 % 16), upperHexDigit (n / 16777216 % 16),
    upperHexDigit (n / 1048576 % 16), upperHexDigit (n / 65536 % 16),
    upperHexDigit (n / 4096 % 16), upperHexDigit (n / 256 % 16),
    upperHexDigit (n / 16 % 16), upperHexDigit (n % 16)]

/-- Each byte as two uppercase hexadecimal digits, with no separators. -/
def hexBytesUpperChars : List Nat → List Char
  | [] => []
  | b :: t => upperHexDigit (b / 16) :: upperHexDigit (b % 16) :: hexBytesUpperChars t

/-- The text of `hexBytesUpperChars`. -/
def hexBytesUpper (bs : List Nat) : String := String.mk (hexBytesUpperChars bs)

/-- The `k` low hexadecimal digits of `n`, most significant first, uppercase. -/
def upperHexDigitsOf : Nat → Nat → List Char
  | 0, _ => []
  | k + 1, n => upperHexDigitsOf k (n / 16) ++ [upperHexDigit (n % 16)]

/-- A state of the disassembler as `New` builds it: offset 0, a one-byte buffer of
capacity three, every cell zero. -/
def freshDisasm : Disasm :=
  { offset := 0, cmd := { zeroedCommand with bs := [0] }, spare := [0, 0] }

/-! ## The opcode classifier -/

/-- C1: on a two-byte input whose first byte `b` has `b>>2` equal to 0x0, 0x2,
0x4, 0x6, 0xA or 0x8, `parseOpcode` returns the nil error and leaves the descriptor
with mnemonic add, or, adc, sbb, sub or and respectively, `l = 2`,
`d = (b>>1)&1` and `w = b&1`. -/
theorem parseOpcode_regmem_forms (c : command) (b b2 : Nat) (hb : b < 256) (_hb2 : b2 < 256) :
    (b >>> 2 = 0x0 →
      command.parseOpcode c [b, b2] = some (regMemDescriptor Mnemonic.add b, none)) ∧
    (b >>> 2 = 0x2 →
      command.parseOpcode c [b, b2] = some (regMemDescriptor Mnemonic.or b, none)) ∧
    (b >>> 2 = 0x4 →
      command.parseOpcode c [b, b2] = some (regMemDescriptor Mnemonic.adc b, none)) ∧
    (b >>> 2 = 0x6 →
      command.parseOpcode c [b, b2] = some (regMemDescriptor Mnemonic.sbb b, none)) ∧
    (b >>> 2 = 0xA →
      command.parseOpcode c [b, b2] = some (regMemDescriptor Mnemonic.sub b, none)) ∧
    (b >>> 2 = 0x8 →
      command.parseOpcode c [b, b2] = some (regMemDescriptor Mnemonic.and b, none)) := by
  simp only [Nat.shiftRight_eq_div_pow]
  refine ⟨?_, ?_, ?_, ?_, ?_, ?_⟩ <;> intro h
  · have h1 : b < 4 := by omega
    interval_cases b <;>
      simp +decide [command.parseOpcode, command.init, regMemDescriptor, getd, getw]
  · have h1 : 8 ≤ b := by omega
    have h2 : b < 12 := by omega
    interval_cases b <;>
      simp +decide [command.parseOpcode, command.init, regMemDescriptor, getd, getw]
  · have h1 : 16 ≤ b := by omega
    have h2 : b < 20 := by omega
    interval_cases b <;>
      simp +decide [command.parseOpcode, command.init, regMemDescriptor, getd, getw]
  · have h1 : 24 ≤ b := by omega
    have h2 : b < 28 := by omega
    interval_cases b <;>
      simp +decide [command.parseOpcode, command.init, regMemDescriptor, getd, getw]
  · have h1 : 40 ≤ b := by omega
    have h2 : b < 44 := by omega
    interval_cases b <;>
      simp +decide [command.parseOpcode, command.init, regMemDescriptor, getd, getw]
  · have h1 : 32 ≤ b := by omega
    have h2 : b < 36 := by omega
    interval_cases b <;>
      simp +decide [command.parseOpcode, command.init, regMemDescriptor, getd, getw]

/-- Witness of C1 on the two-byte input 0x01 0x00 after an earlier decode. -/
theorem parseOpcode_regmem_forms_witness :
    command.parseOpcode staleCommand [0x01, 0x00] =
      some ({ bs := [], mnem := Mnemonic.add, l := 2, d := 0, w := 1, reg := none }, none) :=
  (parseOpcode_regmem_forms staleCommand 0x01 0x00 (by decide) (by decide)).1 (by decide)

/-- C2: on a two-byte input whose first byte `b` has `b>>1` equal to 0x2, 0x6,
0xA, 0xE or 0x12 (the immediate forms), `parseOpcode` returns the nil error and
leaves the descriptor with mnemonic add, or, adc, sbb or and respectively,
`w = b&1`, `l = 1 + w` (so `l` is 1 or 2) and `d = 0`. -/
theorem parseOpcode_immediate_forms (c : command) (b b2 : Nat)
    (hb : b < 256) (_hb2 : b2 < 256) :
    ((b >>> 1 = 0x2 →
        command.parseOpcode c [b, b2] = some (immDescriptor Mnemonic.add b, none)) ∧
      (b >>> 1 = 0x6 →
        command.parseOpcode c [b, b2] = some (immDescriptor Mnemonic.or b, none)) ∧
      (b >>> 1 = 0xA →
        command.parseOpcode c [b, b2] = some (immDescriptor Mnemonic.adc b, none)) ∧
      (b >>> 1 = 0xE →
        command.parseOpcode c [b, b2] = some (immDescriptor Mnemonic.sbb b, none)) ∧
      (b >>> 1 = 0x12 →
        command.parseOpcode c [b, b2] = some (immDescriptor Mnemonic.and b, none))) ∧
    ∀ mn, (immDescriptor mn b).l = 1 ∨ (immDescriptor mn b).l = 2 := by
  constructor
  · simp only [Nat.shiftRight_eq_div_pow]
    refine ⟨?_, ?_, ?_, ?_, ?_⟩ <;> intro h
    · have h1 : 4 ≤ b := by omega
      have h2 : b < 6 := by omega
      interval_cases b <;>
        simp +decide [command.parseOpcode, command.init, immDescriptor, getd, getw]
    · have h1 : 12 ≤ b := by omega
      have h2 : b < 14 := by omega
      interval_cases b <;>
        simp +decide [command.parseOpcode, command.init, immDescriptor, getd, getw]
    · have h1 : 20 ≤ b := by omega
      have h2 : b < 22 := by omega
      interval_cases b <;>
        simp +decide [command.parseOpcode, command.init, immDescriptor, getd, getw]
    · have h1 : 28 ≤ b := by omega
      have h2 : b < 30 := by omega
      interval_cases b <;>
        simp +decide [command.parseOpcode, command.init, immDescriptor, getd, getw]
    · have h1 : 36 ≤ b := by omega
      have h2 : b < 38 := by omega
      interval_cases b <;>
        simp +decide [command.parseOpcode, command.init, immDescriptor, getd, getw]
  · intro mn
    have hw : b &&& 1 = b % 2 := Nat.and_one_is_mod b
    simp only [immDescriptor, hw, Int.ofNat_eq_coe]
    omega

/-- Witness of C2 on the two-byte input 0x05 0x00 after an earlier decode. -/
theorem parseOpcode_immediate_forms_witness :
    command.parseOpcode staleCommand [0x05, 0x00] =
      some ({ bs := [], mnem := Mnemonic.add, l := 2, d := 0, w := 1, reg := none }, none) :=
  (parseOpcode_immediate_forms staleCommand 0x05 0x00 (by decide) (by decide)).1.1 (by decide)

set_option maxRecDepth 8192 in
/-- Bytes that a segment-register push matches. -/
theorem push_pattern_bytes :
    ∀ b < 256, b &&& 0xE7 = 0x6 → b = 0x06 ∨ b = 0x0E ∨ b = 0x16 ∨ b = 0x1E := by
  decide

set_option maxRecDepth 8192 in
/-- Bytes that a segment-register pop matches. -/
theorem pop_pattern_bytes :
    ∀ b < 256, b &&& 0xE7 = 0x7 → b = 0x07 ∨ b = 0x0F ∨ b = 0x17 ∨ b = 0x1F := by
  decide

/-- C3: on a two-byte input whose first byte `b` has `b & 0xE7` equal to 0x06
(respectively 0x07), `parseOpcode` returns the nil error and leaves the descriptor
with mnemonic push (respectively pop), `l = 1`, `d = 0`, `w = 0` and the
segment-register selector `(b>>3)&3`, which is a valid index into the four-entry
segment-register table. -/
theorem parseOpcode_sreg_forms (c : command) (b b2 : Nat) (hb : b < 256) (_hb2 : b2 < 256) :
    (b &&& 0xE7 = 0x06 →
      command.parseOpcode c [b, b2] = some (sregDescriptor Mnemonic.push b, none)) ∧
    (b &&& 0xE7 = 0x07 →
      command.parseOpcode c [b, b2] = some (sregDescriptor Mnemonic.pop b, none)) ∧
    (b >>> 3) &&& 3 < sreg.length ∧ sreg.length = 4 := by
  refine ⟨?_, ?_, ?_, rfl⟩
  · intro h
    rcases push_pattern_bytes b hb h with rfl | rfl | rfl | rfl <;>
      simp +decide [command.parseOpcode, command.init, sregDescriptor]
  · intro h
    rcases pop_pattern_bytes b hb h with rfl | rfl | rfl | rfl <;>
      simp +decide [command.parseOpcode, command.init, sregDescriptor]
  · have h3 : (b >>> 3) &&& 3 ≤ 3 := Nat.and_le_right
    have h4 : sreg.length = 4 := rfl
    omega

/-- Witness of C3 on the two-byte input 0x1E 0x00 (push ds) after an earlier decode. -/
theorem parseOpcode_sreg_forms_witness :
    command.parseOpcode staleCommand [0x1E, 0x00] =
      some ({ bs := [], mnem := Mnemonic.push, l := 1, d := 0, w := 0,
              reg := some (Reg.Sreg 3) }, none) :=
  (parseOpcode_sreg_forms staleCommand 0x1E 0x00 (by decide) (by decide)).1 (by decide)

/-! ## Formatting lemmas -/

/-- The library digit function agrees with the lowercase digit table below 16. -/
theorem digitChar_eq_hexDigit : ∀ d < 16, Nat.digitChar d = hexDigit d := by decide

/-- One round of the digit loop in base 16. -/
theorem toDigitsCore_succ (f n : Nat) (ds : List Char) :
    Nat.toDigitsCore 16 (f + 1) n ds =
      if n / 16 = 0 then Nat.digitChar (n % 16) :: ds
      else Nat.toDigitsCore 16 f (n / 16) (Nat.digitChar (n % 16) :: ds) := rfl

/-- On values below 65536, `%x` prints the numeral without leading zeros. -/
theorem fmtHex_eq_hexNoLead (n : Nat) (h : n < 65536) : fmtHex n = hexNoLead n := by
  unfold fmtHex hexNoLead hex4 Nat.toDigits
  by_cases h1 : n < 16
  · have e0 : n / 16 = 0 := by omega
    have e1 : n % 16 = n := by omega
    rw [if_pos h1, toDigitsCore_succ, if_pos e0, e1, digitChar_eq_hexDigit n h1]
  rw [if_neg h1]
  obtain ⟨k, rfl⟩ : ∃ k, n = k + 1 := ⟨n - 1, by omega⟩
  have e0 : ¬ (k + 1) / 16 = 0 := by omega
  rw [toDigitsCore_succ, if_neg e0, toDigitsCore_succ]
  by_cases h2 : k + 1 < 256
  · have e1 : (k + 1) / 16 / 16 = 0 := by omega
    have e2 : (k + 1) / 16 % 16 = (k + 1) / 16 := by omega
    rw [if_pos h2, if_pos e1, e2, digitChar_eq_hexDigit _ (by omega),
      digitChar_eq_hexDigit _ (by omega)]
  rw [if_neg h2]
  have e1 : ¬ (k + 1) / 16 / 16 = 0 := by omega
  obtain ⟨j, rfl⟩ : ∃ j, k = j + 1 := ⟨k - 1, by omega⟩
  rw [if_neg e1, toDigitsCore_succ]
  by_cases h3 : j + 1 + 1 < 4096
  · have e2 : (j + 1 + 1) / 16 / 16 / 16 = 0 := by omega
    have e3 : (j + 1 + 1) / 16 / 16 % 16 = (j + 1 + 1) / 256 := by omega
    have e4 : (j + 1 + 1) / 16 % 16 < 16 := by omega
    rw [if_pos h3, if_pos e2, e3, digitChar_eq_hexDigit _ (by omega),
      digitChar_eq_hexDigit _ e4, digitChar_eq_hexDigit _ (by omega)]
  rw [if_neg h3]
  have e2 : ¬ (j + 1 + 1) / 16 / 16 / 16 = 0 := by omega
  obtain ⟨i, rfl⟩ : ∃ i, j = i + 1 := ⟨j - 1, by omega⟩
  have e3 : (i + 1 + 1 + 1) / 16 / 16 / 16 / 16 = 0 := by omega
  have e4 : (i + 1 + 1 + 1) / 16 / 16 / 16 % 16 = (i + 1 + 1 + 1) / 4096 % 16 := by omega
  have e5 : (i + 1 + 1 + 1) / 16 / 16 % 16 = (i + 1 + 1 + 1) / 256 % 16 := by omega
  rw [if_neg e2, toDigitsCore_succ, if_pos e3, e4, e5, digitChar_eq_hexDigit _ (by omega),
    digitChar_eq_hexDigit _ (by omega), digitChar_eq_hexDigit _ (by omega),
    digitChar_eq_hexDigit _ (by omega)]

/-- On a byte, `%02x` prints exactly its two hexadecimal digits. -/
theorem fmtHexPad_two (b : Nat) (h : b < 256) :
    fmtHexPad 2 b = String.mk [hexDigit (b / 16), hexDigit (b % 16)] := by
  unfold fmtHexPad
  rw [fmtHex_eq_hexNoLead b (by omega)]
  unfold hexNoLead
  by_cases h1 : b < 16
  · have e0 : b / 16 = 0 := by omega
    have e1 : b % 16 = b := by omega
    rw [if_pos h1, e0, e1]
    rfl
  · rw [if_neg h1, if_pos h]
    rfl

/-- The four digits of a little-endian word are the two digits of its high byte
followed by the two digits of its low byte. -/
theorem hex4_word (lo hi : Nat) (hlo : lo < 256) (hhi : hi < 256) :
    hex4 (hi * 256 + lo) = fmtHexPad 2 hi ++ fmtHexPad 2 lo := by
  have e1 : (hi * 256 + lo) / 4096 % 16 = hi / 16 := by omega
  have e2 : (hi * 256 + lo) / 256 % 16 = hi % 16 := by omega
  have e3 : (hi * 256 + lo) / 16 % 16 = lo / 16 := by omega
  have e4 : (hi * 256 + lo) % 16 = lo % 16 := by omega
  rw [fmtHexPad_two hi hhi, fmtHexPad_two lo hlo, hex4, e1, e2, e3, e4]
  rfl

/-- The r/m field always selects an entry of the effective-address table. -/
theorem regm_index (m : Nat) : ∃ r, regm[m &&& 7]? = some r := by
  have h7 : m &&& 7 ≤ 7 := Nat.and_le_right
  have hl : m &&& 7 < regm.length := by
    have : regm.length = 8 := rfl
    omega
  exact ⟨regm[m &&& 7], List.getElem?_eq_getElem hl⟩

/-- The r/m field always selects an entry of the 16-bit register table. -/
theorem reg16_index (m : Nat) : ∃ r, reg16[m &&& 7]? = some r := by
  have h7 : m &&& 7 ≤ 7 := Nat.and_le_right
  have hl : m &&& 7 < reg16.length := by
    have : reg16.length = 8 := rfl
    omega
  exact ⟨reg16[m &&& 7], List.getElem?_eq_getElem hl⟩

/-- Reading a 16-bit pattern as signed and back gives the pattern. -/
theorem bits16_wrap16 (n : Nat) (h : n < 65536) : bits16 (wrap16 n) = n := by
  unfold bits16 wrap16
  have e : n % 65536 = n := Nat.mod_eq_of_lt h
  rw [e]
  split <;> simp only [Int.ofNat_eq_coe] <;> omega

/-- The 16-bit pattern of a non-negative value below 65536 is the value. -/
theorem bits16_ofNat (n : Nat) (h : n < 65536) : bits16 (Int.ofNat n) = n := by
  unfold bits16
  simp only [Int.ofNat_eq_coe]
  omega

/-- The displacement built from two bytes is the signed reading of their
little-endian word. -/
theorem disp16_value (lo hi : Nat) (hlo : lo < 256) (hhi : hi < 256) :
    or16 (shl16 (int16 hi) 8) (int16 lo) = wrap16 (hi * 256 + lo) := by
  have e1 : hi % 256 = hi := Nat.mod_eq_of_lt hhi
  have e2 : lo % 256 = lo := Nat.mod_eq_of_lt hlo
  have e3 : Int.ofNat hi * 2 ^ 8 = Int.ofNat (hi * 256) := by
    simp only [Int.ofNat_eq_coe]
    push_cast
    norm_num
  have e4 : hi * 256 ||| lo = hi * 256 + lo := by
    have h := Nat.mul_add_lt_is_or (i := 8) (b := lo) (by simpa using hlo) hi
    rw [Nat.mul_comm] at h
    simpa using h.symm
  unfold or16 shl16 int16
  rw [e1, e2, e3, bits16_ofNat _ (by omega), bits16_wrap16 _ (by omega),
    bits16_ofNat _ (by omega), e4]
/-! ## The ModRM resolver -/

/-- C4: on a three-byte input `[m, lo, hi]` whose ModRM byte has `m>>6 == 0` and
`m&7 == 6` (direct address), `modrm` returns the nil error and the operand text
`[0x` followed by exactly four lowercase hexadecimal digits, zero-padded, of the
16-bit address `hi*256 + lo`, followed by `]`. -/
theorem modrm_direct_address (m lo hi : Nat) (_hm : m < 256) (hlo : lo < 256) (hhi : hi < 256)
    (hmod : m >>> 6 = 0) (hrm : m &&& 7 = 6) :
    modrm [m, lo, hi] = some ("[0x" ++ hex4 (hi * 256 + lo) ++ "]", none) ∧
      (hex4 (hi * 256 + lo)).length = 4 := by
  refine ⟨?_, rfl⟩
  simp [modrm, maxLenFolInstCod, hmod, hrm, hex4_word lo hi hlo hhi, String.append_assoc]

/-- Witness of C4: the input 0x06 0x34 0x12 gives the text `[0x1234]`. -/
theorem modrm_direct_address_witness :
    modrm [0x06, 0x34, 0x12] = some ("[0x1234]", none) :=
  (modrm_direct_address 0x06 0x34 0x12 (by decide) (by decide) (by decide)
    (by decide) (by decide)).1

/-- C5: on a two-byte input `[m, d]` whose ModRM byte has `m>>6 == 1`, `modrm`
returns the nil error and the operand text `[`, the entry `regm[m&7]`, the sign,
`0x`, the hexadecimal magnitude and `]`, where `s` is `d` read as a signed 8-bit
value (`d` below 128, `d - 256` otherwise, so between -128 and 127), the sign is
`+` when `s >= 0` and `-` when `s < 0`, and the magnitude is written in lowercase
without leading zeros. -/
theorem modrm_disp8 (m d : Nat) (_hm : m < 256) (hd : d < 256) (hmod : m >>> 6 = 1)
    (s : Int) (hs : s = if d < 128 then (d : Int) else (d : Int) - 256) :
    (∃ r, regm[m &&& 7]? = some r ∧
      modrm [m, d] =
        some ("[" ++ r ++ (if 0 ≤ s then "+" else "-") ++ "0x" ++ hexNoLead s.natAbs ++ "]",
          none)) ∧
    -128 ≤ s ∧ s ≤ 127 := by
  have h8 : int8 d = s := by
    have e : d % 256 = d := Nat.mod_eq_of_lt hd
    rw [hs, int8, e]
    rfl
  have hr : -128 ≤ s ∧ s ≤ 127 := by
    rw [hs]
    split <;> omega
  refine ⟨?_, hr⟩
  obtain ⟨r, hreg⟩ := regm_index m
  refine ⟨r, hreg, ?_⟩
  have hmag : fmtHex s.natAbs = hexNoLead s.natAbs := fmtHex_eq_hexNoLead _ (by omega)
  have hsign : (if s < 0 then "-" else "+") = (if 0 ≤ s then "+" else "-") := by
    by_cases h0 : 0 ≤ s
    · rw [if_pos h0, if_neg (by omega)]
    · rw [if_neg h0, if_pos (by omega)]
  simp [modrm, maxLenFolInstCod, hmod, hreg, h8, fmtSignedHex, hmag, hsign,
    String.append_assoc]

/-- Witness of C5: the input 0x40 0xFF gives the text `[bx+si-0x1]`. -/
theorem modrm_disp8_witness :
    (∃ r, regm[0x40 &&& 7]? = some r ∧ modrm [0x40, 0xFF] = some ("[bx+si-0x1]", none)) ∧
      (-128 : Int) ≤ -1 ∧ (-1 : Int) ≤ 127 := by
  obtain ⟨⟨r, hreg, h⟩, hrange⟩ :=
    modrm_disp8 0x40 0xFF (by decide) (by decide) (by decide) (-1) (by decide)
  have hr : r = "bx+si" := by
    have h0 : regm[0x40 &&& 7]? = some "bx+si" := by decide
    rw [h0] at hreg
    exact (Option.some.inj hreg).symm
  subst hr
  exact ⟨⟨"bx+si", hreg, by rw [h]; decide⟩, hrange⟩

/-- C6: on a three-byte input `[m, lo, hi]` whose ModRM byte has `m>>6 == 2`, the
displacement `(int16(hi) << 8) | int16(lo)`, computed with 16-bit wrap-around, is
the signed 16-bit reading `s` of the little-endian word `hi*256 + lo` (the word
when below 32768, the word minus 65536 otherwise, so between -32768 and 32767),
and the operand text is `[`, the entry `regm[m&7]`, the sign, `0x`, the lowercase
hexadecimal magnitude of `s` and `]`. -/
theorem modrm_disp16 (m lo hi : Nat) (_hm : m < 256) (hlo : lo < 256) (hhi : hi < 256)
    (hmod : m >>> 6 = 2) (s : Int)
    (hs : s = if hi * 256 + lo < 32768 then ((hi * 256 + lo : Nat) : Int)
              else ((hi * 256 + lo : Nat) : Int) - 65536) :
    or16 (shl16 (int16 hi) 8) (int16 lo) = s ∧
    -32768 ≤ s ∧ s ≤ 32767 ∧
    ∃ r, regm[m &&& 7]? = some r ∧
      modrm [m, lo, hi] =
        some ("[" ++ r ++ (if 0 ≤ s then "+" else "-") ++ "0x" ++ hexNoLead s.natAbs ++ "]",
          none) := by
  have hdisp : or16 (shl16 (int16 hi) 8) (int16 lo) = s := by
    have e : (hi * 256 + lo) % 65536 = hi * 256 + lo := Nat.mod_eq_of_lt (by omega)
    rw [disp16_value lo hi hlo hhi, hs, wrap16, e]
    rfl
  have hr : -32768 ≤ s ∧ s ≤ 32767 := by
    rw [hs]
    split <;> omega
  refine ⟨hdisp, hr.1, hr.2, ?_⟩
  obtain ⟨r, hreg⟩ := regm_index m
  refine ⟨r, hreg, ?_⟩
  have hmag : fmtHex s.natAbs = hexNoLead s.natAbs := fmtHex_eq_hexNoLead _ (by omega)
  have hsign : (if s < 0 then "-" else "+") = (if 0 ≤ s then "+" else "-") := by
    by_cases h0 : 0 ≤ s
    · rw [if_pos h0, if_neg (by omega)]
    · rw [if_neg h0, if_pos (by omega)]
  simp [modrm, maxLenFolInstCod, hmod, hreg, hdisp, fmtSignedHex, hmag, hsign,
    String.append_assoc]

/-- Witness of C6: the input 0x87 0x00 0x80 carries the displacement -32768 and gives
the text `[bx-0x8000]`. -/
theorem modrm_disp16_witness :
    or16 (shl16 (int16 0x80) 8) (int16 0x00) = -32768 ∧
      modrm [0x87, 0x00, 0x80] = some ("[bx-0x8000]", none) := by
  obtain ⟨hdisp, _, _, r, hreg, h⟩ :=
    modrm_disp16 0x87 0x00 0x80 (by decide) (by decide) (by decide) (by decide) (-32768)
      (by decide)
  have hr : r = "bx" := by
    have h0 : regm[0x87 &&& 7]? = some "bx" := by decide
    rw [h0] at hreg
    exact (Option.some.inj hreg).symm
  subst hr
  exact ⟨hdisp, by rw [h]; decide⟩

/-- C7: on a one-byte input `[m]` whose ModRM byte has `m>>6 == 0` and `m&7 != 6`,
`modrm` returns the nil error and the operand text `[`, the entry `regm[m&7]` and
`]`, where `regm` is the effective-address table bx+si, bx+di, bp+si, bp+di, si,
di, bp, bx. -/
theorem modrm_no_displacement (m : Nat) (_hm : m < 256) (hmod : m >>> 6 = 0)
    (hrm : m &&& 7 ≠ 6) :
    (∃ r, regm[m &&& 7]? = some r ∧ modrm [m] = some ("[" ++ r ++ "]", none)) ∧
      regm = ["bx+si", "bx+di", "bp+si", "bp+di", "si", "di", "bp", "bx"] := by
  refine ⟨?_, rfl⟩
  obtain ⟨r, hreg⟩ := regm_index m
  refine ⟨r, hreg, ?_⟩
  simp [modrm, maxLenFolInstCod, hmod, hrm, hreg]

/-- Witness of C7: the input 0x07 gives the text `[bx]`. -/
theorem modrm_no_displacement_witness :
    modrm [0x07] = some ("[bx]", none) := by
  obtain ⟨⟨r, hreg, h⟩, _⟩ :=
    modrm_no_displacement 0x07 (by decide) (by decide) (by decide)
  have hr : r = "bx" := by
    have h0 : regm[0x07 &&& 7]? = some "bx" := by decide
    rw [h0] at hreg
    exact (Option.some.inj hreg).symm
  subst hr
  rw [h]
  decide

/-- C8: on a ModRM byte `m` with `m>>6 == 3` and no trailing bytes, `modrm` returns
the nil error and the 16-bit register name `reg16[m&7]` of the table ax, cx, dx, bx,
sp, bp, si, di, never an 8-bit register name. -/
theorem modrm_register_direct (m : Nat) (_hm : m < 256) (hmod : m >>> 6 = 3) :
    (∃ r, reg16[m &&& 7]? = some r ∧ modrm [m] = some (r, none) ∧ r ∉ reg8) ∧
      reg16 = ["ax", "cx", "dx", "bx", "sp", "bp", "si", "di"] := by
  refine ⟨?_, rfl⟩
  obtain ⟨r, hreg⟩ := reg16_index m
  refine ⟨r, hreg, ?_, ?_⟩
  · simp [modrm, maxLenFolInstCod, hmod, hreg]
  · have h7 : m &&& 7 ≤ 7 := Nat.and_le_right
    generalize m &&& 7 = k at hreg h7
    interval_cases k <;>
      · simp [reg16] at hreg
        subst hreg
        decide

/-- Witness of C8: the input 0xC3 gives the register name `bx`. -/
theorem modrm_register_direct_witness :
    modrm [0xC3] = some ("bx", none) := by
  obtain ⟨⟨r, hreg, h, _⟩, _⟩ := modrm_register_direct 0xC3 (by decide) (by decide)
  have hr : r = "bx" := by
    have h0 : reg16[0xC3 &&& 7]? = some "bx" := by decide
    rw [h0] at hreg
    exact (Option.some.inj hreg).symm
  subst hr
  exact h

/-- C9: the register-direct branch checks no length, so `modrm` succeeds on the
three-byte input 0xC3 0x00 0x00, whose mod field is 11 and demands one byte. -/
theorem modrm_register_direct_surplus :
    modrm [0xC3, 0x00, 0x00] = some ("bx", none) ∧ 0xC3 >>> 6 = 3 ∧
      [0xC3, 0x00, 0x00].length = 3 := by
  decide

/-- C10, as stated, fails: 0x30 matches none of the thirteen cases, and
`parseOpcode` returns the nil error together with the zeroed descriptor. -/
theorem parseOpcode_unmatched_counterexample :
    ¬ matchesCase 0x30 ∧
      command.parseOpcode staleCommand [0x30, 0x00] =
        some ({ bs := [], mnem := Mnemonic.unset, l := 0, d := 0, w := 0, reg := none },
          none) := by
  decide

/-- C10, amended: on a two-byte input whose first byte matches none of the thirteen
case conditions, `parseOpcode` returns the nil error and leaves the descriptor
zeroed (mnemonic unset, `l = 0`, `d = 0`, `w = 0`, no register selector, no bytes);
it reports no unrecognized-opcode error. -/
theorem parseOpcode_unmatched_zeroed (c : command) (b b2 : Nat)
    (_hb : b < 256) (_hb2 : b2 < 256) (hno : ¬ matchesCase b) :
    command.parseOpcode c [b, b2] =
      some ({ bs := [], mnem := Mnemonic.unset, l := 0, d := 0, w := 0, reg := none },
        none) := by
  simp only [matchesCase, not_or] at hno
  obtain ⟨h1, h2, h3, h4, h5, h6, h7, h8, h9, h10, h11, h12, h13⟩ := hno
  simp [command.parseOpcode, command.init, h1, h2, h3, h4, h5, h6, h7, h8, h9, h10, h11,
    h12, h13]

/-- Witness of the amended C10 on the two-byte input 0xFF 0xC0 after an earlier
decode. -/
theorem parseOpcode_unmatched_zeroed_witness :
    command.parseOpcode staleCommand [0xFF, 0xC0] =
      some ({ bs := [], mnem := Mnemonic.unset, l := 0, d := 0, w := 0, reg := none },
        none) :=
  parseOpcode_unmatched_zeroed staleCommand 0xFF 0xC0 (by decide) (by decide) (by decide)

/-! ## Further lemmas on the classifier and the resolver -/

/-- The result of `parseOpcode` on a two-byte input depends neither on the prior
descriptor nor on the second byte. -/
theorem parseOpcode_congr (c c' : command) (b b2 b2' : Nat) :
    command.parseOpcode c [b, b2] = command.parseOpcode c' [b, b2'] := by
  simp [command.parseOpcode, command.init]

/-- The mod field of a byte is one of 0, 1, 2, 3. -/
theorem byte_mod_cases (m : Nat) (hm : m < 256) :
    m >>> 6 = 0 ∨ m >>> 6 = 1 ∨ m >>> 6 = 2 ∨ m >>> 6 = 3 := by
  simp only [Nat.shiftRight_eq_div_pow]
  omega

set_option maxRecDepth 100000 in
/-- Clearing bits 3 to 5 of a byte keeps its mod and r/m fields. -/
theorem mask_keeps_mod_rm : ∀ m < 256,
    (m &&& 0xC7) >>> 6 = m >>> 6 ∧ (m &&& 0xC7) &&& 7 = m &&& 7 := by
  decide

/-- On a non-empty input whose first byte is a byte, `modrm` returns, and never with
the error of its default branch. -/
theorem modrm_outcome (m : Nat) (rest : List Nat) (hm : m < 256) :
    ∃ s e, modrm (m :: rest) = some (s, e) ∧
      ∀ mod rm, e ≠ some (Error.invalidField mod rm) := by
  obtain ⟨r, hr⟩ := regm_index m
  obtain ⟨q, hq⟩ := reg16_index m
  rcases rest with _ | ⟨x, _ | ⟨y, _ | ⟨z, t⟩⟩⟩
  · rcases byte_mod_cases m hm with h | h | h | h
    · by_cases h6 : m &&& 7 = 6
      · exact ⟨_, _, by simp [modrm, maxLenFolInstCod, h, h6]; exact ⟨rfl, rfl⟩,
          by simp [modrmErr]⟩
      · exact ⟨_, _, by simp [modrm, maxLenFolInstCod, h, h6, hr]; exact ⟨rfl, rfl⟩,
          by simp⟩
    · exact ⟨_, _, by simp [modrm, maxLenFolInstCod, h]; exact ⟨rfl, rfl⟩,
        by simp [modrmErr]⟩
    · exact ⟨_, _, by simp [modrm, maxLenFolInstCod, h]; exact ⟨rfl, rfl⟩,
        by simp [modrmErr]⟩
    · exact ⟨_, _, by simp [modrm, maxLenFolInstCod, h, hq]; exact ⟨rfl, rfl⟩, by simp⟩
  · rcases byte_mod_cases m hm with h | h | h | h
    · by_cases h6 : m &&& 7 = 6
      · exact ⟨_, _, by simp [modrm, maxLenFolInstCod, h, h6]; exact ⟨rfl, rfl⟩,
          by simp [modrmErr]⟩
      · exact ⟨_, _, by simp [modrm, maxLenFolInstCod, h, h6]; exact ⟨rfl, rfl⟩,
          by simp [modrmErr]⟩
    · exact ⟨_, _, by simp [modrm, maxLenFolInstCod, h, hr]; exact ⟨rfl, rfl⟩, by simp⟩
    · exact ⟨_, _, by simp [modrm, maxLenFolInstCod, h]; exact ⟨rfl, rfl⟩,
        by simp [modrmErr]⟩
    · exact ⟨_, _, by simp [modrm, maxLenFolInstCod, h, hq]; exact ⟨rfl, rfl⟩, by simp⟩
  · rcases byte_mod_cases m hm with h | h | h | h
    · by_cases h6 : m &&& 7 = 6
      · exact ⟨_, _, by simp [modrm, maxLenFolInstCod, h, h6]; exact ⟨rfl, rfl⟩, by simp⟩
      · exact ⟨_, _, by simp [modrm, maxLenFolInstCod, h, h6]; exact ⟨rfl, rfl⟩,
          by simp [modrmErr]⟩
    · exact ⟨_, _, by simp [modrm, maxLenFolInstCod, h]; exact ⟨rfl, rfl⟩,
        by simp [modrmErr]⟩
    · exact ⟨_, _, by simp [modrm, maxLenFolInstCod, h, hr]; exact ⟨rfl, rfl⟩, by simp⟩
    · exact ⟨_, _, by simp [modrm, maxLenFolInstCod, h, hq]; exact ⟨rfl, rfl⟩, by simp⟩
  · exact ⟨_, _, by simp [modrm, maxLenFolInstCod]; exact ⟨rfl, rfl⟩, by simp⟩

/-- Two first bytes that agree outside bits 3 to 5 give the same operand text and
the same kind of error. -/
theorem modrm_reg_field_map (m m' : Nat) (rest : List Nat) (hm : m < 256) (hm' : m' < 256)
    (hsame : m &&& 0xC7 = m' &&& 0xC7) :
    (modrm (m :: rest)).map (fun r => (r.1, r.2.isSome)) =
      (modrm (m' :: rest)).map (fun r => (r.1, r.2.isSome)) := by
  have hmod : m' >>> 6 = m >>> 6 := by
    rw [← (mask_keeps_mod_rm m hm).1, ← (mask_keeps_mod_rm m' hm').1, hsame]
  have hrm : m' &&& 7 = m &&& 7 := by
    rw [← (mask_keeps_mod_rm m hm).2, ← (mask_keeps_mod_rm m' hm').2, hsame]
  obtain ⟨r, hr⟩ := regm_index m
  obtain ⟨q, hq⟩ := reg16_index m
  rcases rest with _ | ⟨x, _ | ⟨y, _ | ⟨z, t⟩⟩⟩ <;>
    rcases byte_mod_cases m hm with h | h | h | h <;>
      by_cases h6 : m &&& 7 = 6 <;>
        simp [modrm, maxLenFolInstCod, modrmErr, hmod, hrm, h, h6, hr, hq]

set_option maxRecDepth 100000 in
/-- On every first byte the register selector is set exactly for push and pop. -/
theorem selector_check : ∀ b < 256, ∃ r ∈ command.parseOpcode staleCommand [b, 0],
      (r.1.reg ≠ none ↔ r.1.mnem = Mnemonic.push ∨ r.1.mnem = Mnemonic.pop) ∧
      (r.1.mnem ∈ [Mnemonic.add, Mnemonic.or, Mnemonic.adc, Mnemonic.sbb, Mnemonic.sub,
          Mnemonic.and] → r.1.reg = none) := by
  decide

set_option maxRecDepth 100000 in
/-- A byte of an inc form matches none of the thirteen cases of `parseOpcode`. -/
theorem inc_bytes_match_no_case :
    ∀ b < 256, b >>> 1 = 0x7F ∨ b >>> 3 = 0x8 → ¬ matchesCase b := by
  decide

/-- A `switch` over a table takes the first case whose condition holds. -/
theorem firstMatch_eq_filter (l : List (Bool × command)) (z : command) :
    firstMatch l z = (((l.filter (fun p => p.1)).head?).map Prod.snd).getD z := by
  induction l with
  | nil => rfl
  | cons p t ih =>
    obtain ⟨cond, c⟩ := p
    cases cond
    · simpa [firstMatch] using ih
    · simp [firstMatch]

/-- When at most one condition of a table holds, the order of its cases is
immaterial. -/
theorem firstMatch_perm (l l' : List (Bool × command)) (z : command) (hp : l.Perm l')
    (hone : (l.filter (fun p => p.1)).length ≤ 1) : firstMatch l z = firstMatch l' z := by
  have hf : (l.filter (fun p => p.1)).Perm (l'.filter (fun p => p.1)) := hp.filter _
  rw [firstMatch_eq_filter, firstMatch_eq_filter]
  generalize hl : l.filter (fun p => p.1) = fl at hf hone
  rcases fl with _ | ⟨a, _ | ⟨a', t⟩⟩
  · rw [List.nil_perm.mp hf]
  · rw [← List.singleton_perm.mp hf]
  · simp at hone

set_option maxRecDepth 100000 in
/-- At most one of the fifteen patterns holds on a byte. -/
theorem patterns_count : ∀ b < 256, (opcodePatterns b).count true ≤ 1 := by
  decide

set_option maxRecDepth 100000 in
/-- At most one of the thirteen case conditions holds on a byte. -/
theorem cases_count : ∀ b < 256,
    ((parseOpcodeCases b).filter (fun p => p.1)).length ≤ 1 := by
  decide

set_option maxRecDepth 100000 in
/-- The classifier is the first-match run of its table of cases. -/
theorem parseOpcode_table : ∀ b < 256,
    command.parseOpcode staleCommand [b, 0] =
      some (firstMatch (parseOpcodeCases b) zeroedCommand, none) := by
  decide

/-! ## Uppercase hexadecimal numerals -/

/-- The digit loop only prepends to its accumulator. -/
theorem toDigitsCore_append (f : Nat) : ∀ (n : Nat) (ds : List Char),
    Nat.toDigitsCore 16 f n ds = Nat.toDigitsCore 16 f n [] ++ ds := by
  induction f with
  | zero => intro n ds; rfl
  | succ f ih =>
    intro n ds
    rw [toDigitsCore_succ, toDigitsCore_succ]
    by_cases h : n / 16 = 0
    · rw [if_pos h, if_pos h]; rfl
    · rw [if_neg h, if_neg h, ih (n / 16) (_ :: ds), ih (n / 16) [_]]
      simp

/-- The digit loop gives the same digits for any fuel above its argument. -/
theorem toDigitsCore_fuel (f : Nat) : ∀ (g n : Nat) (ds : List Char), n < f → n < g →
    Nat.toDigitsCore 16 f n ds = Nat.toDigitsCore 16 g n ds := by
  induction f with
  | zero => intro g n ds hf; omega
  | succ f ih =>
    intro g n ds hf hg
    obtain ⟨g, rfl⟩ : ∃ k, g = k + 1 := ⟨g - 1, by omega⟩
    rw [toDigitsCore_succ, toDigitsCore_succ]
    by_cases h : n / 16 = 0
    · rw [if_pos h, if_pos h]
    · rw [if_neg h, if_neg h]
      exact ih g (n / 16) _ (by omega) (by omega)

/-- A value below 16 is printed as one digit. -/
theorem toDigits_small (n : Nat) (h : n < 16) : Nat.toDigits 16 n = [Nat.digitChar n] := by
  have e0 : n / 16 = 0 := by omega
  have e1 : n % 16 = n := by omega
  rw [Nat.toDigits, toDigitsCore_succ, if_pos e0, e1]

/-- A value of at least 16 is printed as the digits of its quotient by 16 followed
by its last digit. -/
theorem toDigits_large (n : Nat) (h : 16 ≤ n) :
    Nat.toDigits 16 n = Nat.toDigits 16 (n / 16) ++ [Nat.digitChar (n % 16)] := by
  have e0 : ¬ n / 16 = 0 := by omega
  rw [Nat.toDigits, toDigitsCore_succ, if_neg e0, toDigitsCore_append,
    toDigitsCore_fuel n (n / 16 + 1) (n / 16) [] (by omega) (by omega)]
  rfl

set_option maxRecDepth 4096 in
/-- The uppercase of a library digit is the digit of the uppercase table. -/
theorem toUpper_digitChar : ∀ d < 16, (Nat.digitChar d).toUpper = upperHexDigit d := by
  decide

/-- The digits of zero are zeros. -/
theorem upperHexDigitsOf_zero (k : Nat) : upperHexDigitsOf k 0 = List.replicate k '0' := by
  induction k with
  | zero => rfl
  | succ k ih =>
    rw [upperHexDigitsOf, Nat.zero_div, ih, List.replicate_succ']
    rfl

/-- A value below `16 ^ (k + 1)` is printed with at most `k + 1` digits. -/
theorem toDigits_length_le (k : Nat) : ∀ n, n < 16 ^ (k + 1) →
    (Nat.toDigits 16 n).length ≤ k + 1 := by
  induction k with
  | zero =>
    intro n h
    rw [toDigits_small n (by simpa using h)]
    simp
  | succ k ih =>
    intro n h
    by_cases hs : n < 16
    · rw [toDigits_small n hs]; simp
    · rw [toDigits_large n (by omega)]
      have : n / 16 < 16 ^ (k + 1) := by
        rw [Nat.div_lt_iff_lt_mul (by norm_num)]
        rw [pow_succ] at h
        exact h
      have := ih (n / 16) this
      simp
      omega

/-- Padding the uppercase numeral of a value below `16 ^ (k + 1)` with zeros to
`k + 1` characters gives its `k + 1` low digits. -/
theorem pad_upper_digits (k : Nat) : ∀ n, n < 16 ^ (k + 1) →
    List.replicate (k + 1 - (Nat.toDigits 16 n).length) '0' ++
        (Nat.toDigits 16 n).map Char.toUpper = upperHexDigitsOf (k + 1) n := by
  induction k with
  | zero =>
    intro n h
    have hs : n < 16 := by simpa using h
    have e0 : n % 16 = n := by omega
    rw [toDigits_small n hs, upperHexDigitsOf, upperHexDigitsOf, e0]
    simp [toUpper_digitChar n hs]
  | succ k ih =>
    intro n h
    by_cases hs : n < 16
    · have e0 : n % 16 = n := by omega
      have e1 : n / 16 = 0 := by omega
      rw [toDigits_small n hs, upperHexDigitsOf, e0, e1, upperHexDigitsOf_zero]
      simp [toUpper_digitChar n hs]
    · have hlt : n / 16 < 16 ^ (k + 1) := by
        rw [Nat.div_lt_iff_lt_mul (by norm_num)]
        rw [pow_succ] at h
        exact h
      have hlen := toDigits_length_le k (n / 16) hlt
      rw [toDigits_large n (by omega), upperHexDigitsOf, ← ih (n / 16) hlt]
      have e : k + 1 + 1 - (Nat.toDigits 16 (n / 16) ++ [Nat.digitChar (n % 16)]).length
          = k + 1 - (Nat.toDigits 16 (n / 16)).length := by
        simp
      rw [e]
      simp [toUpper_digitChar (n % 16) (by omega)]

/-- The eight low digits of a value, written out. -/
theorem upperHexDigitsOf_eight (n : Nat) :
    String.mk (upperHexDigitsOf 8 n) = hex8Upper n := by
  simp only [upperHexDigitsOf, hex8Upper, Nat.div_div_eq_div_mul, List.nil_append,
    List.cons_append, List.append_assoc]

/-- On an offset within 0 and 2^32, `%08X` prints exactly eight digits. -/
theorem fmtHEXPad_eight (off : Int) (h0 : 0 ≤ off) (h32 : off < 2 ^ 32) :
    fmtHEXPad 8 off = hex8Upper off.toNat := by
  have hn : off.natAbs = off.toNat := by omega
  have hlt : off.toNat < 16 ^ (7 + 1) := by
    norm_num
    omega
  rw [fmtHEXPad, if_neg (by omega), hn, ← upperHexDigitsOf_eight,
    ← pad_upper_digits 7 off.toNat hlt]
  simp [fmtHEX, String.ext_iff]

/-- On a byte slice, `%X` prints each byte as its two uppercase digits. -/
theorem fmtHEXBytes_eq (bs : List Nat) : fmtHEXBytes bs = hexBytesUpper bs := by
  have h : fmtHEXBytesChars bs = hexBytesUpperChars bs := by
    induction bs with
    | nil => rfl
    | cons c t ih =>
      have e1 : c >>> 4 = c / 16 := by simp [Nat.shiftRight_eq_div_pow]
      have e2 : c &&& 0xF = c % 16 := Nat.and_pow_two_sub_one_eq_mod c 4
      rw [fmtHEXBytesChars, hexBytesUpperChars, ih, e1, e2]
  rw [fmtHEXBytes, hexBytesUpper, h]

/-- The text of a byte slice has two characters for each byte. -/
theorem hexBytesUpper_length (bs : List Nat) : (hexBytesUpper bs).length = 2 * bs.length := by
  have h : (hexBytesUpperChars bs).length = 2 * bs.length := by
    induction bs with
    | nil => rfl
    | cons c t ih =>
      simp only [hexBytesUpperChars, List.length_cons, ih]
      omega
  simpa [hexBytesUpper] using h

/-! ## Error results, invariants and independence of the classifier -/

/-- C11: on every input whose length is not exactly 2, in particular the empty input
and every single-byte input, `parseOpcode` returns a non-nil error (and leaves the
descriptor zeroed). -/
theorem parseOpcode_wrong_length (c : command) (bs : List Nat) (hlen : bs.length ≠ 2) :
    command.parseOpcode c bs = some (zeroedCommand, some Error.parseOpcodeLength) := by
  simp [command.parseOpcode, command.init, zeroedCommand, hlen]

/-- Witness of C11 on the empty input, a single-byte input and a three-byte input. -/
theorem parseOpcode_wrong_length_witness :
    command.parseOpcode staleCommand [] = some (zeroedCommand, some Error.parseOpcodeLength) ∧
    command.parseOpcode staleCommand [0x01] =
      some (zeroedCommand, some Error.parseOpcodeLength) ∧
    command.parseOpcode staleCommand [0x01, 0x00, 0x00] =
      some (zeroedCommand, some Error.parseOpcodeLength) :=
  ⟨parseOpcode_wrong_length staleCommand [] (by decide),
    parseOpcode_wrong_length staleCommand [0x01] (by decide),
    parseOpcode_wrong_length staleCommand [0x01, 0x00, 0x00] (by decide)⟩

/-- C15: on every two-byte input the descriptor `parseOpcode` produces has its
register selector set exactly when its mnemonic is push or pop; when the mnemonic
is add, or, adc, sbb, sub or and, the selector is unset. -/
theorem parseOpcode_selector_iff (c : command) (b b2 : Nat) (hb : b < 256) (_hb2 : b2 < 256) :
    ∃ c' e, command.parseOpcode c [b, b2] = some (c', e) ∧
      (c'.reg ≠ none ↔ c'.mnem = Mnemonic.push ∨ c'.mnem = Mnemonic.pop) ∧
      (c'.mnem ∈ [Mnemonic.add, Mnemonic.or, Mnemonic.adc, Mnemonic.sbb, Mnemonic.sub,
          Mnemonic.and] → c'.reg = none) := by
  obtain ⟨⟨c', e⟩, hmem, hp⟩ := selector_check b hb
  rw [Option.mem_def, parseOpcode_congr staleCommand c b 0 b2] at hmem
  exact ⟨c', e, hmem, hp⟩

/-- Witness of C15 on the two-byte input 0x1E 0x00 (push ds). -/
theorem parseOpcode_selector_iff_witness :
    ∃ c' e, command.parseOpcode staleCommand [0x1E, 0x00] = some (c', e) ∧
      (c'.reg ≠ none ↔ c'.mnem = Mnemonic.push ∨ c'.mnem = Mnemonic.pop) ∧
      (c'.mnem ∈ [Mnemonic.add, Mnemonic.or, Mnemonic.adc, Mnemonic.sbb, Mnemonic.sub,
          Mnemonic.and] → c'.reg = none) :=
  parseOpcode_selector_iff staleCommand 0x1E 0x00 (by decide) (by decide)

/-- C16: the outcome of `parseOpcode` is determined by the first input byte alone:
from any two prior descriptors and on any two two-byte inputs with the same first
byte it leaves identical descriptors and returns the same error, which is nil. -/
theorem parseOpcode_first_byte_only (c c' : command) (b b2 b2' : Nat)
    (hb : b < 256) (_hb2 : b2 < 256) (_hb2' : b2' < 256) :
    command.parseOpcode c [b, b2] = command.parseOpcode c' [b, b2'] ∧
      ∃ r, command.parseOpcode c [b, b2] = some (r, none) ∧
        command.parseOpcode c' [b, b2'] = some (r, none) := by
  refine ⟨parseOpcode_congr c c' b b2 b2', firstMatch (parseOpcodeCases b) zeroedCommand, ?_, ?_⟩
  · rw [parseOpcode_congr c staleCommand b b2 0, parseOpcode_table b hb]
  · rw [parseOpcode_congr c' staleCommand b b2' 0, parseOpcode_table b hb]

/-- Witness of C16 on the first byte 0x25 with two prior descriptors and two second
bytes. -/
theorem parseOpcode_first_byte_only_witness :
    command.parseOpcode staleCommand [0x25, 0x00] =
        command.parseOpcode zeroedCommand [0x25, 0xFF] ∧
      ∃ r, command.parseOpcode staleCommand [0x25, 0x00] = some (r, none) ∧
        command.parseOpcode zeroedCommand [0x25, 0xFF] = some (r, none) :=
  parseOpcode_first_byte_only staleCommand zeroedCommand 0x25 0x00 0xFF (by decide)
    (by decide) (by decide)

/-- C20: for a first byte `b` of an immediate form with `b & 1 == 1` (0x05, 0x0D,
0x15, 0x1D, 0x25) `parseOpcode` produces exactly the descriptor (mnemonic, `l = 2`,
`d = 0`, `w = 1`, no register selector) it produces for the first byte `b - 4`,
which matches the register/memory form of the same mnemonic. -/
theorem parseOpcode_imm_word_as_regmem (c c' : command) (b b2 b2' : Nat) (_hb : b < 256)
    (himm : b >>> 1 = 0x2 ∨ b >>> 1 = 0x6 ∨ b >>> 1 = 0xA ∨ b >>> 1 = 0xE ∨ b >>> 1 = 0x12)
    (hw : b &&& 1 = 1) :
    (b = 0x05 ∨ b = 0x0D ∨ b = 0x15 ∨ b = 0x1D ∨ b = 0x25) ∧
    ∃ mn, command.parseOpcode c [b, b2] =
        some ({ bs := [], mnem := mn, l := 2, d := 0, w := 1, reg := none }, none) ∧
      command.parseOpcode c' [b - 4, b2'] =
        some ({ bs := [], mnem := mn, l := 2, d := 0, w := 1, reg := none }, none) ∧
      immDescriptor mn b = regMemDescriptor mn (b - 4) := by
  have hvals : b = 0x05 ∨ b = 0x0D ∨ b = 0x15 ∨ b = 0x1D ∨ b = 0x25 := by
    rw [Nat.and_one_is_mod] at hw
    simp only [Nat.shiftRight_eq_div_pow] at himm
    omega
  refine ⟨hvals, ?_⟩
  rcases hvals with rfl | rfl | rfl | rfl | rfl
  · exact ⟨Mnemonic.add, by simp +decide [command.parseOpcode, command.init, getw, getd],
      by simp +decide [command.parseOpcode, command.init, getw, getd], by decide⟩
  · exact ⟨Mnemonic.or, by simp +decide [command.parseOpcode, command.init, getw, getd],
      by simp +decide [command.parseOpcode, command.init, getw, getd], by decide⟩
  · exact ⟨Mnemonic.adc, by simp +decide [command.parseOpcode, command.init, getw, getd],
      by simp +decide [command.parseOpcode, command.init, getw, getd], by decide⟩
  · exact ⟨Mnemonic.sbb, by simp +decide [command.parseOpcode, command.init, getw, getd],
      by simp +decide [command.parseOpcode, command.init, getw, getd], by decide⟩
  · exact ⟨Mnemonic.and, by simp +decide [command.parseOpcode, command.init, getw, getd],
      by simp +decide [command.parseOpcode, command.init, getw, getd], by decide⟩

/-- Witness of C20 on the first bytes 0x05 and 0x01. -/
theorem parseOpcode_imm_word_as_regmem_witness :
    ∃ mn, command.parseOpcode staleCommand [0x05, 0x34] =
        some ({ bs := [], mnem := mn, l := 2, d := 0, w := 1, reg := none }, none) ∧
      command.parseOpcode zeroedCommand [0x05 - 4, 0xC3] =
        some ({ bs := [], mnem := mn, l := 2, d := 0, w := 1, reg := none }, none) ∧
      immDescriptor mn 0x05 = regMemDescriptor mn (0x05 - 4) :=
  (parseOpcode_imm_word_as_regmem staleCommand zeroedCommand 0x05 0x34 0xC3 (by decide)
    (Or.inl (by decide)) (by decide)).2

/-- C18: on every byte at most one of the fifteen opcode patterns holds, so the
result of classification does not depend on the order in which the cases are
tested: run over any permutation of the thirteen cases, the `switch` of
`parseOpcode` gives the same descriptor. -/
theorem opcode_patterns_exclusive (b : Nat) (hb : b < 256) :
    (opcodePatterns b).count true ≤ 1 ∧
    ∀ (l : List (Bool × command)), l.Perm (parseOpcodeCases b) →
      ∀ (c : command) (b2 : Nat),
        command.parseOpcode c [b, b2] = some (firstMatch l zeroedCommand, none) := by
  refine ⟨patterns_count b hb, ?_⟩
  intro l hl c b2
  rw [parseOpcode_congr c staleCommand b b2 0, parseOpcode_table b hb,
    firstMatch_perm (parseOpcodeCases b) l zeroedCommand hl.symm (cases_count b hb)]

/-- Witness of C18 on the byte 0x06, with the cases tested in reverse order. -/
theorem opcode_patterns_exclusive_witness :
    (opcodePatterns 0x06).count true ≤ 1 ∧
      command.parseOpcode staleCommand [0x06, 0x00] =
        some (firstMatch (parseOpcodeCases 0x06).reverse zeroedCommand, none) :=
  ⟨(opcode_patterns_exclusive 0x06 (by decide)).1,
    (opcode_patterns_exclusive 0x06 (by decide)).2 _ (List.reverse_perm _) staleCommand 0x00⟩

/-! ## Error results, safety and independence of the resolver -/

/-- C12: when fewer bytes follow the ModRM byte than its mod and r/m fields demand
(two for mod 00 with r/m 110 and for mod 10, one for mod 01), and on the empty
input, `modrm` returns a non-nil error and the empty operand string. -/
theorem modrm_insufficient_bytes (m : Nat) (rest : List Nat) (_hm : m < 256) :
    modrm [] = some ("", some (Error.invalidLength [])) ∧
    (m >>> 6 = 0 → m &&& 7 = 6 → rest.length < 2 →
      modrm (m :: rest) = some ("", some (modrmErr (m &&& 7) (m :: rest) 3))) ∧
    (m >>> 6 = 2 → rest.length < 2 →
      modrm (m :: rest) = some ("", some (modrmErr (m &&& 7) (m :: rest) 3))) ∧
    (m >>> 6 = 1 → rest.length < 1 →
      modrm (m :: rest) = some ("", some (modrmErr (m &&& 7) (m :: rest) 2))) := by
  refine ⟨by decide, ?_, ?_, ?_⟩
  · intro h h6 hl
    rcases rest with _ | ⟨x, _ | ⟨y, t⟩⟩
    · simp [modrm, maxLenFolInstCod, h, h6]
    · simp [modrm, maxLenFolInstCod, h, h6]
    · simp only [List.length_cons] at hl
      omega
  · intro h hl
    rcases rest with _ | ⟨x, _ | ⟨y, t⟩⟩
    · simp [modrm, maxLenFolInstCod, h]
    · simp [modrm, maxLenFolInstCod, h]
    · simp only [List.length_cons] at hl
      omega
  · intro h hl
    rcases rest with _ | ⟨x, t⟩
    · simp [modrm, maxLenFolInstCod, h]
    · simp only [List.length_cons] at hl
      omega

/-- Witness of C12: the direct-address byte 0x06 followed by one byte only. -/
theorem modrm_insufficient_bytes_witness :
    modrm [0x06, 0x34] = some ("", some (modrmErr (0x06 &&& 7) [0x06, 0x34] 3)) :=
  (modrm_insufficient_bytes 0x06 [0x34] (by decide)).2.1 (by decide) (by decide) (by decide)

/-- C17: on every input of one to three bytes `modrm` returns without a panic and
never with the error of its default branch: the mod field `b>>6` is at most 3 and
the r/m field `b&7` is below 8, the length of both `regm` and `reg16`. -/
theorem modrm_no_default_no_panic (bs : List Nat) (hlen1 : 1 ≤ bs.length)
    (_hlen3 : bs.length ≤ 3) (hbytes : ∀ x ∈ bs, x < 256) :
    (∃ s e, modrm bs = some (s, e) ∧ ∀ mod rm, e ≠ some (Error.invalidField mod rm)) ∧
    (∀ b, bs[0]? = some b →
      b >>> 6 ≤ 3 ∧ b &&& 0x7 < regm.length ∧ b &&& 0x7 < reg16.length) ∧
    regm.length = 8 ∧ reg16.length = 8 := by
  refine ⟨?_, ?_, rfl, rfl⟩
  · rcases bs with _ | ⟨m, rest⟩
    · simp at hlen1
    · exact modrm_outcome m rest (hbytes m (by simp))
  · intro b hb
    have hb256 : b < 256 := hbytes b (List.getElem?_mem hb)
    have h7 : b &&& 7 ≤ 7 := Nat.and_le_right
    have hr : regm.length = 8 := rfl
    have hq : reg16.length = 8 := rfl
    refine ⟨?_, by omega, by omega⟩
    simp only [Nat.shiftRight_eq_div_pow]
    omega

/-- Witness of C17 on the three-byte input 0xFF 0xFF 0xFF. -/
theorem modrm_no_default_no_panic_witness :
    (∃ s e, modrm [0xFF, 0xFF, 0xFF] = some (s, e) ∧
      ∀ mod rm, e ≠ some (Error.invalidField mod rm)) ∧
    (∀ b, [0xFF, 0xFF, 0xFF][0]? = some b →
      b >>> 6 ≤ 3 ∧ b &&& 0x7 < regm.length ∧ b &&& 0x7 < reg16.length) ∧
    regm.length = 8 ∧ reg16.length = 8 :=
  modrm_no_default_no_panic [0xFF, 0xFF, 0xFF] (by decide) (by decide) (by decide)

/-- C19: `modrm` ignores bits 3 to 5 of the ModRM byte: on two inputs of equal
length that differ only in those bits of their first byte it either fails on both
or succeeds on both, with the same operand string. -/
theorem modrm_ignores_reg_field (m m' : Nat) (rest : List Nat) (hm : m < 256)
    (hm' : m' < 256) (hsame : m &&& 0xC7 = m' &&& 0xC7) :
    ∃ s e e', modrm (m :: rest) = some (s, e) ∧ modrm (m' :: rest) = some (s, e') ∧
      (e = none ↔ e' = none) := by
  obtain ⟨s, e, h1, _⟩ := modrm_outcome m rest hm
  obtain ⟨s', e', h2, _⟩ := modrm_outcome m' rest hm'
  have hmap := modrm_reg_field_map m m' rest hm hm' hsame
  rw [h1, h2] at hmap
  simp only [Option.map_some', Option.some.injEq, Prod.mk.injEq] at hmap
  obtain ⟨hs, he⟩ := hmap
  subst hs
  refine ⟨s, e, e', h1, h2, ?_⟩
  cases e <;> cases e' <;> simp_all

/-- Witness of C19: the direct-address bytes 0x06 and 0x3E give the same text. -/
theorem modrm_ignores_reg_field_witness :
    ∃ s e e', modrm [0x06, 0x34, 0x12] = some (s, e) ∧
      modrm [0x3E, 0x34, 0x12] = some (s, e') ∧ (e = none ↔ e' = none) :=
  modrm_ignores_reg_field 0x06 0x3E [0x34, 0x12] (by decide) (by decide) (by decide)

/-! ## The formatter -/

/-- C14: for an offset within 0 and 2^32, any bytes, any mnemonic and any strings
`w`, `opr1`, `opr2`, `cmdStr` returns exactly the offset as 8 zero-padded uppercase
hexadecimal digits, two spaces, each byte as two uppercase hexadecimal digits with
no separators (nothing for no bytes), three spaces, the name of the mnemonic, one
space, then `w`, `opr1` and `opr2` with nothing between them. -/
theorem cmdStr_layout (off : Int) (bs : List Nat) (mnem : Mnemonic) (w opr1 opr2 : String)
    (h0 : 0 ≤ off) (h32 : off < 2 ^ 32) (_hbytes : ∀ x ∈ bs, x < 256) :
    cmdStr off bs mnem w opr1 opr2 =
        hex8Upper off.toNat ++ "  " ++ hexBytesUpper bs ++ "   " ++ mnem.name ++ " " ++ w ++
          opr1 ++ opr2 ∧
      (hex8Upper off.toNat).length = 8 ∧
      (hexBytesUpper bs).length = 2 * bs.length := by
  refine ⟨?_, rfl, hexBytesUpper_length bs⟩
  rw [cmdStr, fmtHEXPad_eight off h0 h32, fmtHEXBytes_eq]

/-- Witness of C14 on the offset 0xABCDEF, three bytes and the mnemonic inc. -/
theorem cmdStr_layout_witness :
    cmdStr 0xABCDEF [0x06, 0x34, 0x12] Mnemonic.inc "word " "[0x1234]" "" =
      "00ABCDEF  063412   inc word [0x1234]" := by
  have h := (cmdStr_layout 0xABCDEF [0x06, 0x34, 0x12] Mnemonic.inc "word " "[0x1234]" ""
    (by decide) (by decide) (by decide)).1
  rw [h]
  decide

/-! ## The inc forms -/

/-- C13, as stated, fails: `parseOpcode` has no case for an inc form.  On the first
bytes 0x40 and 0xFF it leaves the zeroed descriptor, whose mnemonic is not inc,
whose length is 0 and whose register selector is unset. -/
theorem parseOpcode_has_no_inc_case :
    (0x40 >>> 3 = 0x8 ∧
      command.parseOpcode staleCommand [0x40, 0x00] = some (zeroedCommand, none)) ∧
    (0xFF >>> 1 = 0x7F ∧
      command.parseOpcode staleCommand [0xFF, 0x06] = some (zeroedCommand, none)) ∧
    zeroedCommand.mnem ≠ Mnemonic.inc ∧ zeroedCommand.l = 0 ∧ zeroedCommand.reg = none := by
  decide

/-- C13, amended: on a first byte `b` with `b>>1 == 0x7F` or `b>>3 == 0x8`
`parseOpcode` matches no case and leaves the zeroed descriptor with the nil error;
the inc forms are recognised by `Disasm.parse`.  For `b>>1 == 0x7F` it advances the
offset by 4, reslices the buffer to three bytes and reads into it, and when the
read and `modrm` succeed it returns the line of mnemonic inc with the qualifier
`word ` over those three bytes; for `b>>3 == 0x8` it advances the offset by 1 and
returns the line of mnemonic inc with no bytes and the operand `reg16[b&7]`. -/
theorem parse_inc_forms (d : Disasm) (read : List Nat → List Nat × Option String)
    (b b2 : Nat) (hb : b < 256) (_hb2 : b2 < 256) :
    (b >>> 1 = 0x7F ∨ b >>> 3 = 0x8 →
      ∀ c, command.parseOpcode c [b, b2] = some (zeroedCommand, none)) ∧
    (b >>> 1 = 0x7F →
      ∀ p opr, 3 ≤ (d.cmd.bs ++ d.spare).length →
        read ((d.cmd.bs ++ d.spare).take 3) = (p, none) → p.length = 3 →
        modrm p = some (opr, none) →
        d.parse read b =
          some ({ offset := wrapInt (d.offset + 4), cmd := { d.cmd with bs := p },
                  spare := (d.cmd.bs ++ d.spare).drop 3 },
            cmdStr (wrapInt (d.offset + 4)) p Mnemonic.inc "word " opr "", none)) ∧
    (b >>> 3 = 0x8 →
      ∃ r, reg16[b &&& 0x7]? = some r ∧
        d.parse read b =
          some ({ d with offset := wrapInt (d.offset + 1) },
            cmdStr (wrapInt (d.offset + 1)) [] Mnemonic.inc "" r "", none)) := by
  refine ⟨?_, ?_, ?_⟩
  · intro h c
    have hno : ¬ matchesCase b := inc_bytes_match_no_case b hb h
    simp only [matchesCase, not_or] at hno
    obtain ⟨h1, h2, h3, h4, h5, h6, h7, h8, h9, h10, h11, h12, h13⟩ := hno
    simp [command.parseOpcode, command.init, zeroedCommand, h1, h2, h3, h4, h5, h6, h7, h8,
      h9, h10, h11, h12, h13]
  · intro h p opr hcap hread _hp hmodrm
    have hcap' : ¬ (d.cmd.bs ++ d.spare).length < 3 := by omega
    simp [Disasm.parse, h, hcap', hread, hmodrm]
    simpa using hcap
  · intro h
    obtain ⟨r, hr⟩ := reg16_index b
    have h1 : ¬ b >>> 1 = 0x7F := by
      simp only [Nat.shiftRight_eq_div_pow] at h ⊢
      omega
    exact ⟨r, hr, by simp [Disasm.parse, h, h1, hr]⟩

/-- Witness of the amended C13: after 0xFF the bytes 0x06 0x34 0x12 are read and
the line is `inc word [0x1234]`, while `parseOpcode` leaves the zeroed descriptor. -/
theorem parse_inc_forms_witness :
    freshDisasm.parse (fun _ => ([0x06, 0x34, 0x12], none)) 0xFF =
        some ({ offset := 4, cmd := { zeroedCommand with bs := [0x06, 0x34, 0x12] },
                spare := [] },
          "00000004  063412   inc word [0x1234]", none) ∧
      command.parseOpcode staleCommand [0xFF, 0x06] = some (zeroedCommand, none) := by
  obtain ⟨h1, h2, _⟩ :=
    parse_inc_forms freshDisasm (fun _ => ([0x06, 0x34, 0x12], none)) 0xFF 0x06
      (by decide) (by decide)
  refine ⟨?_, h1 (Or.inl (by decide)) staleCommand⟩
  rw [h2 (by decide) [0x06, 0x34, 0x12] "[0x1234]" (by decide) rfl rfl (by decide)]
  decide

end Disasm
